import Mathlib

/-!
# Verification of the `em` outliner core

Shallow embedding, in Lean 4, of the core algorithms of the `em` hierarchical
outliner: the `chain` context-chain merge selector, the `syncQueue` batching
middleware (`mergeBatch`, `flushDeletes`, `flushQueue`), and the `LayoutTree`
tree-linearization (`linearizeTree`) and positioning passes, together with
theorems settling the specified properties.

Conventions used throughout the embedding:
* JS arrays become `List`; JS objects used as string-keyed maps become
  association lists (`List (String × V)`) with JS object-spread semantics.
* `undefined`/`null` become `Option`; ranks and pixel quantities become `Int`
  and `Rat` (JS numbers are floats, but no claim here depends on rounding).
* Fallible lookups return `Option`; general recursion is given explicit fuel.
-/

set_option autoImplicit false

namespace Em

/-! ## JS primitives: arrays and objects -/

/-- `head` from `util/head`: the head of a path in `em` is its LAST element
(`thoughts[thoughts.length - 1]`), `undefined` on the empty array. -/
def jsHead {α : Type} (l : List α) : Option α :=
  l.getLast?

/-- `Array.prototype.findIndex`: index of the first match, `-1` when none. -/
def jsFindIndex {α : Type} (p : α → Bool) (l : List α) : Int :=
  match l.findIdx? p with
  | some n => (n : Int)
  | none => -1

/-- `Array.prototype.slice(start)` with a possibly negative start index:
a negative start counts from the end of the array (clamped at 0). -/
def jsSlice {α : Type} (l : List α) (start : Int) : List α :=
  if start < 0 then l.drop ((l.length + start).toNat)
  else l.drop start.toNat

/-- Modelled from the spec: the repository's `util/splice` (not under `src/`)
is a pure mirror of JS `Array.prototype.splice` — its name and `(arr, start,
deleteCount)` arguments denote removing `deleteCount` elements starting at
index `start`: `arr.slice(0, start) ++ arr.slice(start + deleteCount)`. -/
def jsSplice {α : Type} (l : List α) (start deleteCount : Nat) : List α :=
  l.take start ++ l.drop (start + deleteCount)

/-- First value stored under key `k` in an association list (JS property
lookup on an object modelled as an association list). -/
def lookupKey {V : Type} (l : List (String × V)) (k : String) : Option V :=
  match l with
  | [] => none
  | (k', v) :: rest => if k = k' then some v else lookupKey rest k

/-- Whether an association list has an entry for key `k` (JS `k in obj`). -/
def containsKey {V : Type} (l : List (String × V)) (k : String) : Bool :=
  match l with
  | [] => false
  | (k', _) :: rest => k = k' || containsKey rest k

/-- JS object spread `{...a, ...b}`: keys of `a` keep their positions but take
`b`'s value when `b` also has the key; keys only in `b` are appended. -/
def objSpread {V : Type} (a b : List (String × V)) : List (String × V) :=
  a.map (fun p => (p.1, (lookupKey b p.1).getD p.2))
    ++ b.filter (fun p => !containsKey a p.1)

/-- First-defined choice between two optional values (used to state the
last-write-wins lookup behaviour of `objSpread`). -/
def jsOr {α : Type} (x y : Option α) : Option α :=
  match x with
  | some v => some v
  | none => y

/-! ## Data model shared by `chain` and the sync queue

This revision of `em` (see `src/selectors/chain.ts`, `syncQueue.ts`) represents
path elements as `{ value, rank }` records and contexts as arrays of values. -/

/-- A path element: a thought value with its sibling rank. -/
structure Child where
  value : String
  rank : Int
deriving DecidableEq, Repr

/-- A context: the sequence of ancestor values identifying a parent. -/
abbrev Context : Type := List String

/-- `SimplePath`: a resolved path, an array of `{value, rank}` elements. -/
abbrev SimplePath : Type := List Child

/-- An entry of `getContextsSortedAndRanked`: one context in which a value
appears, with the rank it has there. -/
structure ContextThought where
  context : Context
  rank : Int
deriving DecidableEq

/-- The slice of store state that `chain` consults: `normalizeThought` from
`util` and the `getContextsSortedAndRanked` selector (neither is under `src/`,
so both are left abstract — the claims quantify over every store state). -/
structure ChainState where
  normalizeThought : String → String
  getContextsSortedAndRanked : String → List ContextThought

/-! ## `chain` (src/selectors/chain.ts) -/

/-- `chain` from `src/selectors/chain.ts`: merges thoughts into a context
chain, removing the overlapping element. Branches where the JS code would
dereference `undefined` (empty last segment, empty append) return `[]`; no
claim depends on them. -/
def chain (state : ChainState) (contextChain : List SimplePath) (path : SimplePath) :
    SimplePath :=
  if contextChain.length = 0 then path
  else
    -- head thought in the last segment of the contextChain
    match jsHead (contextChain.getLastD []) with
    | none => []
    | some pivot =>
      let i := jsFindIndex
        (fun child => state.normalizeThought child.value == state.normalizeThought pivot.value)
        path
      let append := jsSlice path (i - 1)
      let contexts := state.getContextsSortedAndRanked pivot.value
      match append with
      | [] => []
      | a0 :: arest =>
        let appendedThoughtInContext := contexts.find?
          (fun child =>
            state.normalizeThought ((jsHead child.context).getD "")
              == state.normalizeThought a0.value)
        let appendFinal : SimplePath :=
          match appendedThoughtInContext with
          | some c => { value := a0.value, rank := c.rank } :: arest
          | none => a0 :: arest
        -- keep the first segment intact, remove the overlap of each one after
        (((contextChain ++ [appendFinal]).enum.map
          (fun p => if p.1 > 0 then jsSplice p.2 1 1 else p.2)).flatten)

/-- The `chain` merge as the spec's §4.1 words it: identical pivot location,
append slicing and re-ranking, but dropping each later segment's FIRST element
before flattening. Stated only to compare with `chain` as implemented. -/
def chainPerSpecWords (state : ChainState) (contextChain : List SimplePath)
    (path : SimplePath) : SimplePath :=
  if contextChain.length = 0 then path
  else
    match jsHead (contextChain.getLastD []) with
    | none => []
    | some pivot =>
      let i := jsFindIndex
        (fun child => state.normalizeThought child.value == state.normalizeThought pivot.value)
        path
      let append := jsSlice path (i - 1)
      let contexts := state.getContextsSortedAndRanked pivot.value
      match append with
      | [] => []
      | a0 :: arest =>
        let appendedThoughtInContext := contexts.find?
          (fun child =>
            state.normalizeThought ((jsHead child.context).getD "")
              == state.normalizeThought a0.value)
        let appendFinal : SimplePath :=
          match appendedThoughtInContext with
          | some c => { value := a0.value, rank := c.rank } :: arest
          | none => a0 :: arest
        (((contextChain ++ [appendFinal]).enum.map
          (fun p => if p.1 > 0 then p.2.drop 1 else p.2)).flatten)

/-- A concrete `ChainState` with the identity normalization and no recorded
contexts, used for counterexamples and witnesses. -/
def chainStateEx : ChainState where
  normalizeThought := fun s => s
  getContextsSortedAndRanked := fun _ => []

/-- The append tail of the `chain` merge: the path from one position before
the pivot match (inclusive), with its first element re-ranked to the rank of
the pivot's context whose head matches it (rank continuity across a context
view boundary), when such a context exists. -/
def chainAppendTail (state : ChainState) (path : SimplePath) (pivot : Child) (i : Nat) :
    SimplePath :=
  match path.drop (i - 1) with
  | [] => []
  | a0 :: arest =>
    match (state.getContextsSortedAndRanked pivot.value).find?
        (fun child =>
          state.normalizeThought ((jsHead child.context).getD "")
            == state.normalizeThought a0.value) with
    | some c => { value := a0.value, rank := c.rank } :: arest
    | none => a0 :: arest

/-! ## Sync queue (src/redux-middleware/syncQueue.ts) -/

/-- A pending-delete directive: a child marked for deletion under a parent
context, awaiting a fetch of its descendants before the finalizing delete. -/
structure PendingDelete where
  context : Context
  child : Child
deriving DecidableEq

/-- `SyncBatch` from `util/initialState`: a pending set of mutations. The
value types of the three index maps and of `updates` are irrelevant to the
claims and are abstract parameters. The fields `localFlag`/`remoteFlag` model
the source's optional `local`/`remote` (`local` is a Lean keyword);
`Option Bool` models `boolean | undefined`. -/
structure SyncBatch (α β γ δ : Type) where
  thoughtIndexUpdates : List (String × α) := []
  contextIndexUpdates : List (String × β) := []
  recentlyEdited : List (String × γ) := []
  pendingDeletes : List PendingDelete := []
  updates : List (String × δ) := []
  localFlag : Option Bool := none
  remoteFlag : Option Bool := none
deriving DecidableEq

/-- `{} as SyncBatch`, the initial accumulator of the merging reduce: an
object with no keys, so every spread of its (absent) fields contributes
nothing and `accum.pendingDeletes || []` is `[]`. -/
def emptyBatch {α β γ δ : Type} : SyncBatch α β γ δ := {}

/-- `mergeBatch` from `syncQueue.ts`: merges two sync batches — object spread
(last write wins per key) for the index maps, concatenation for
`pendingDeletes`, and `batch.local !== false` / `batch.remote !== false` for
the destination flags ("uses last value of local/remote"). The source's
`accum ? ... : batch` guard only handles a null/undefined accumulator, which
cannot occur here (`{}` is truthy in JS), so only the merge branch is
modelled. -/
def mergeBatch {α β γ δ : Type} (accum batch : SyncBatch α β γ δ) : SyncBatch α β γ δ where
  contextIndexUpdates := objSpread accum.contextIndexUpdates batch.contextIndexUpdates
  thoughtIndexUpdates := objSpread accum.thoughtIndexUpdates batch.thoughtIndexUpdates
  recentlyEdited := objSpread accum.recentlyEdited batch.recentlyEdited
  pendingDeletes := accum.pendingDeletes ++ batch.pendingDeletes
  updates := objSpread accum.updates batch.updates
  localFlag := some (batch.localFlag != some false)
  remoteFlag := some (batch.remoteFlag != some false)

/-- An observable dispatch performed during a flush, in execution order:
the `pull` of pending-delete contexts, a finalizing `existingThoughtDelete`
per pending child, and the `sync` of a merged batch. -/
inductive FlushEvent (α β γ δ : Type) where
  | pull (pending : List (String × Context)) (unboundedDepth : Bool)
  | deleteDispatch (context : Context) (child : Child)
  | syncDispatch (batch : SyncBatch α β γ δ)
deriving DecidableEq

/-- Whether an event is a finalizing `existingThoughtDelete` dispatch. -/
def FlushEvent.isDeleteDispatch {α β γ δ : Type} : FlushEvent α β γ δ → Bool
  | .deleteDispatch _ _ => true
  | _ => false

/-- Whether an event is a `sync` dispatch of a merged batch. -/
def FlushEvent.isSyncDispatch {α β γ δ : Type} : FlushEvent α β γ δ → Bool
  | .syncDispatch _ => true
  | _ => false

/-- The pending-delete directives of the whole queue, in queue order
(`syncQueue.map(batch => batch.pendingDeletes || []).flat()`). -/
def queuePendingDeletes {α β γ δ : Type} (syncQueue : List (SyncBatch α β γ δ)) :
    List PendingDelete :=
  (syncQueue.map (fun batch => batch.pendingDeletes)).flatten

/-- The argument of the `pull`: `keyValueBy(pendingDeletes, ({context}) =>
({[hashContext(context)]: context}))`. `keyValueBy` (a `util` not under
`src/`) builds one object from the list, later entries overriding earlier
ones on hash collision; `hashContext` (also not under `src/`) stays
abstract. -/
def pendingPullArg (hashContext : Context → String) (pendingDeletes : List PendingDelete) :
    List (String × Context) :=
  pendingDeletes.foldl (fun accum pd => objSpread accum [(hashContext pd.context, pd.context)]) []

/-- The dispatches of `flushDeletes` up to its first `await`: when there are
pending deletes, the `pull` of all their contexts with `maxDepth: Infinity`
(modelled as `unboundedDepth := true`). This prefix runs synchronously when
`flushQueue` dispatches the (un-awaited) `flushDeletes` thunk. -/
def flushDeletesPre {α β γ δ : Type} (hashContext : Context → String)
    (syncQueue : List (SyncBatch α β γ δ)) : List (FlushEvent α β γ δ) :=
  let pendingDeletes := queuePendingDeletes syncQueue
  if pendingDeletes.length ≠ 0 then
    [FlushEvent.pull (pendingPullArg hashContext pendingDeletes) true]
  else []

/-- The dispatches of `flushDeletes` after its `await dispatch(pull ...)`
resolves: one finalizing `existingThoughtDelete` per pending child, in
order. -/
def flushDeletesPost {α β γ δ : Type} (syncQueue : List (SyncBatch α β γ δ)) :
    List (FlushEvent α β γ δ) :=
  let pendingDeletes := queuePendingDeletes syncQueue
  if pendingDeletes.length ≠ 0 then
    pendingDeletes.map (fun pd => FlushEvent.deleteDispatch pd.context pd.child)
  else []

/-- The dispatch trace of one `flushQueue` run, in the order the
single-threaded JS runtime performs the dispatches. `flushQueue` dispatches
the `flushDeletes` thunk WITHOUT awaiting it, so only `flushDeletes`'s
synchronous prefix (up to its first `await`, i.e. the `pull`) runs first;
`flushQueue` then filters the queue by destination, merges each group
(`reduce(mergeBatch, {})`) and dispatches the merged batches (`sync` is
dispatched when `Object.keys(merged).length > 0`, i.e. exactly when the
filtered group is non-empty, since `mergeBatch` always returns a full
object); the finalizing deletes run only later, as the continuation after
the awaited `pull` promise resolves (JS `await` always defers its
continuation past the current synchronous run). A JS batch is "bound for"
a destination when its flag is truthy, i.e. `some true`. -/
def flushQueueTrace {α β γ δ : Type} (hashContext : Context → String)
    (syncQueue : List (SyncBatch α β γ δ)) : List (FlushEvent α β γ δ) :=
  if syncQueue.length = 0 then []
  else
    let localBatches := syncQueue.filter (fun batch => batch.localFlag == some true)
    let remoteBatches := syncQueue.filter (fun batch => batch.remoteFlag == some true)
    let localMergedBatch := localBatches.foldl mergeBatch emptyBatch
    let remoteMergedBatch := remoteBatches.foldl mergeBatch emptyBatch
    flushDeletesPre hashContext syncQueue
      ++ ((if localBatches.length > 0 then [FlushEvent.syncDispatch localMergedBatch] else [])
        ++ (if remoteBatches.length > 0 then [FlushEvent.syncDispatch remoteMergedBatch] else []))
      ++ flushDeletesPost syncQueue

/-- Every finalizing delete dispatch of the trace is preceded by the `pull`
of pending-delete contexts (scanning left to right with a seen-pull flag). -/
def deletesAfterPull {α β γ δ : Type} (seenPull : Bool) : List (FlushEvent α β γ δ) → Bool
  | [] => true
  | FlushEvent.pull _ _ :: rest => deletesAfterPull true rest
  | FlushEvent.deleteDispatch _ _ :: rest => seenPull && deletesAfterPull seenPull rest
  | FlushEvent.syncDispatch _ :: rest => deletesAfterPull seenPull rest

/-- Every finalizing delete dispatch occurs before every `sync` dispatch —
the ordering the claim asserts ("deletes fully resolved first, and only
after that are the batches merged and dispatched"). -/
def deletesBeforeSyncs {α β γ δ : Type} : List (FlushEvent α β γ δ) → Bool
  | [] => true
  | FlushEvent.syncDispatch _ :: rest =>
    rest.all (fun e => !e.isDeleteDispatch) && deletesBeforeSyncs rest
  | _ :: rest => deletesBeforeSyncs rest

/-- Every `sync` dispatch occurs before every finalizing delete dispatch —
the ordering the code actually produces. -/
def syncsBeforeDeletes {α β γ δ : Type} : List (FlushEvent α β γ δ) → Bool
  | [] => true
  | FlushEvent.deleteDispatch _ _ :: rest =>
    rest.all (fun e => !e.isSyncDispatch) && syncsBeforeDeletes rest
  | _ :: rest => syncsBeforeDeletes rest

/-- A concrete one-batch queue with one pending delete, bound for local, used
to exhibit the flush ordering. -/
def batchEx : SyncBatch Nat Nat Nat Nat where
  thoughtIndexUpdates := [("t1", 1)]
  pendingDeletes := [{ context := ["a"], child := { value := "c", rank := 0 } }]
  localFlag := some true

/-- A concrete context hash for the examples. -/
def hashContextEx (context : Context) : String :=
  String.intercalate "/" context

/-! ## Tree linearization (`LayoutTree` / `linearizeTree`)

The component works over the modern `em` data model: paths are arrays of
`ThoughtId`. The selectors and utils it calls (`getThoughtById`,
`getChildrenRanked`, `getContextsSortedAndRanked`, `isContextViewActive`,
`childrenFilterPredicate`, `simplifyPath`, `findDescendant`, `getStyle`,
`parseLet`, `attributeEquals`, `hasChildren`, `getChildren`, `thoughtToPath`,
`rootedParentOf`) are not under `src/`; they are abstract fields of `State`,
so every theorem quantifies over all of their behaviours. `hashPath` is a
hash keying `state.expanded`; it is treated as injective, so the expansion
maps are modelled as predicates on the path itself. -/

/-- A thought identifier. `0` plays the role of the `HOME_TOKEN` root id. -/
abbrev ThoughtId : Type := Nat

/-- The root token. -/
def HOME_TOKEN : ThoughtId := (0 : Nat)

/-- A `Path`: a sequence of thought ids from the root to a target node. -/
abbrev IdPath : Type := List ThoughtId

/-- `HOME_PATH`, the default base path of the traversal. -/
def HOME_PATH : IdPath := [HOME_TOKEN]

/-- `isRoot` from `util` (not under `src/`): a path of length 1 holding a
root token. Only the home root is modelled. -/
def isRoot (path : IdPath) : Bool :=
  path == HOME_PATH

/-- A thought record, with the fields `linearizeTree` reads. -/
structure Thought where
  id : ThoughtId
  value : String
  parentId : ThoughtId
deriving DecidableEq, Repr

/-- Inheritable CSS, as a property association list. -/
abbrev Style : Type := List (String × String)

/-- `LazyEnv`: `let`-like bindings of names to thought ids. -/
abbrev LazyEnv : Type := List (String × ThoughtId)

/-- The slice of the store state consumed by `linearizeTree`. -/
structure State where
  expanded : IdPath → Bool
  expandHoverDownPaths : IdPath → Bool
  cursor : Option IdPath
  getThoughtById : ThoughtId → Option Thought
  getChildrenRanked : ThoughtId → List Thought
  getContextsSortedAndRanked : String → List Thought
  isContextViewActive : IdPath → Bool
  childrenFilterPredicate : IdPath → Thought → Bool
  simplifyPath : IdPath → IdPath
  findDescendant : ThoughtId → String → Option ThoughtId
  getStyle : Option ThoughtId → Option Style
  parseLet : IdPath → LazyEnv
  attributeEquals : ThoughtId → String → String → Bool
  hasChildren : ThoughtId → Bool
  getChildren : ThoughtId → List Thought
  thoughtToPath : ThoughtId → IdPath
  rootedParentOf : IdPath → IdPath

/-- `head(path)` as a `ThoughtId`: the path's last element. Every path this
is applied to is non-empty in a reachable call; the default is arbitrary. -/
def headId (path : IdPath) : ThoughtId :=
  (jsHead path).getD HOME_TOKEN

/-- `appendToPath` from `util` (not under `src/`): append an id, replacing a
root base path rather than extending it. -/
def appendToPathMemo (path : IdPath) (id : ThoughtId) : IdPath :=
  if isRoot path then [id] else path ++ [id]

/-- `safeRefMerge` from `util` (not under `src/`) applied to three arguments:
merges the objects left to right (last write wins), `null` when every
argument is `null`/`undefined`. -/
def safeRefMerge3 (a b c : Option Style) : Option Style :=
  match a, b, c with
  | none, none, none => none
  | _, _, _ => some (objSpread (objSpread (a.getD []) (b.getD [])) (c.getD []))

/-- `_.pick(style, ACCUM_STYLE_PROPERTIES)`: the accumulating position
properties of a (possibly null) style; always an object, `{}` on null. -/
def pickAccumStyle (style : Option Style) : Style :=
  (style.getD []).filter (fun p => p.1 == "marginLeft" || p.1 == "paddingLeft")

/-- `crossContextualKey`: a `VirtualThought` key unique across context views
— the heads of the context chain joined, a separator, and the id. -/
def crossContextualKey (contextChain : List IdPath) (id : ThoughtId) : String :=
  String.join (contextChain.map (fun path => toString (headId path))) ++ "|" ++ toString id

/-- 1st pass: a thought with rendering information after the tree has been
linearized (`TreeThought` in `LayoutTree`). -/
structure TreeThought where
  belowCursor : Bool
  depth : Nat
  env : Option LazyEnv
  grandparentKey : String
  indexChild : Nat
  indexDescendant : Nat
  isTableCol1 : Bool
  isTableCol2 : Bool
  key : String
  leaf : Bool
  parentKey : String
  path : IdPath
  prevChild : Option Thought
  showContexts : Bool
  simplePath : IdPath
  style : Option Style
  thought : Thought
  visibleChildrenKeys : Option (List String)
deriving DecidableEq

/-- The named arguments of `linearizeTree`, with the source's defaults
(`{ depth: 0, indexDescendant: 0 }`; `belowCursor` starts undefined, which
behaves as `false`; a missing `contextChain` behaves as `[]` since every
read goes through `contextChain || []`). -/
structure LinArgs where
  basePath : Option IdPath := none
  belowCursor : Bool := false
  contextId : Option ThoughtId := none
  contextChain : List IdPath := []
  depth : Nat := 0
  env : Option LazyEnv := none
  indexDescendant : Nat := 0
  styleAccum : Option Style := none
  styleFromGrandparent : Option Style := none

/-- The per-call context of the children reduce of `linearizeTree`: the
values of the enclosing call that the reduce body reads. The two style
arguments of the recursive call are loop-invariant and are computed once
here. -/
structure LinCtx where
  path : IdPath
  simplePath : IdPath
  contextViewActive : Bool
  contextChain : List IdPath
  contextChainNew : List IdPath
  depth : Nat
  env : Option LazyEnv
  indexDescendant : Nat
  style : Option Style
  styleAccumRec : Option Style
  styleFromGrandparentRec : Option Style
  filteredChildren : List Thought

/-- The resolved thought of one reduce iteration: if the context view is
active, the context's PARENT thought (which may still be pending, i.e.
`none`) instead of the context itself. -/
def childResolved (state : State) (ctx : LinCtx) (filteredChild : Thought) : Option Thought :=
  if ctx.contextViewActive then state.getThoughtById filteredChild.parentId
  else some filteredChild

/-- `virtualIndexNew`: the running visible-index assigned to the node of one
reduce iteration — the call's `indexDescendant` argument, plus the
`indexDescendant` of the last node accumulated so far (0 when none), plus 1
except for the very first node of the whole tree. -/
def linVirtualIndexNew (ctx : LinCtx) (i : Nat) (accum : List TreeThought) : Nat :=
  let lastVirtualIndex := match accum.getLast? with
    | some node => node.indexDescendant
    | none => 0
  ctx.indexDescendant + lastVirtualIndex + (if ctx.depth == 0 && i == 0 then 0 else 1)

/-- `envNew`: merged `let` bindings — the inherited `env` spread with the
bindings parsed at this path, but `undefined` unless BOTH are non-empty. -/
def linEnvNew (state : State) (ctx : LinCtx) : Option LazyEnv :=
  let envParsed := state.parseLet ctx.path
  match ctx.env with
  | some env =>
    if env.length > 0 && envParsed.length > 0 then some (objSpread env envParsed)
    else none
  | none => none

/-- The `belowCursor` update of one reduce iteration: as soon as the cursor
path is reached, the flag switches to `true` (`equalPath(childPath,
state.cursor)`); afterwards it is carried unchanged. -/
def linBelowCursor1 (state : State) (belowCursor : Bool) (childPath : IdPath) : Bool :=
  if !belowCursor && (state.cursor == some childPath) then true else belowCursor

/-- The `TreeThought` emitted by one reduce iteration. -/
def linNode (state : State) (ctx : LinCtx) (filteredChild child : Thought) (i : Nat)
    (virtualIndexNew : Nat) (belowCursor1 : Bool) : TreeThought :=
  let isTable := state.attributeEquals child.id "=view" "Table"
  { belowCursor := belowCursor1
    depth := ctx.depth
    env := linEnvNew state ctx
    grandparentKey :=
      crossContextualKey ctx.contextChainNew (headId (state.rootedParentOf ctx.simplePath))
    indexChild := i
    indexDescendant := virtualIndexNew
    isTableCol1 := state.attributeEquals (headId ctx.simplePath) "=view" "Table"
    isTableCol2 :=
      state.attributeEquals (headId (state.rootedParentOf ctx.simplePath)) "=view" "Table"
    key := crossContextualKey ctx.contextChainNew child.id
    leaf := !state.hasChildren filteredChild.id
    parentKey := crossContextualKey ctx.contextChainNew (headId ctx.simplePath)
    path := appendToPathMemo ctx.path child.id
    prevChild := if i == 0 then none else ctx.filteredChildren.get? (i - 1)
    showContexts := ctx.contextViewActive
    simplePath := if ctx.contextViewActive
      then state.thoughtToPath child.id
      else appendToPathMemo ctx.simplePath child.id
    style := ctx.style
    thought := child
    visibleChildrenKeys := if isTable
      then some ((state.getChildren child.id).map
        (fun c => crossContextualKey ctx.contextChain c.id))
      else none }

/-- The arguments of the recursive `linearizeTree` call of one iteration. -/
def linRecArgs (state : State) (ctx : LinCtx) (filteredChild child : Thought)
    (virtualIndexNew : Nat) (belowCursor1 : Bool) : LinArgs where
  basePath := some (appendToPathMemo ctx.path child.id)
  belowCursor := belowCursor1
  contextId := if ctx.contextViewActive then some filteredChild.id else none
  contextChain := ctx.contextChainNew
  depth := ctx.depth + 1
  env := linEnvNew state ctx
  indexDescendant := virtualIndexNew
  styleAccum := ctx.styleAccumRec
  styleFromGrandparent := ctx.styleFromGrandparentRec

/-- The `belowCursor` propagation after the recursive call: if the cursor was
found anywhere in the descendants (their last node carries the flag), switch
the loop flag before the next sibling is processed. -/
def linNextFlag (belowCursor1 : Bool) (descendants : List TreeThought) : Bool :=
  if !belowCursor1
      && (match descendants.getLast? with
        | some node => node.belowCursor
        | none => false)
    then true else belowCursor1

/-- The body of `filteredChildren.reduce(...)` in `linearizeTree`, with the
closure-mutated `belowCursor` made an explicit second component of the
accumulator and the recursive call abstracted as `recur`. The `!child`
branch is the source's `return []`: it RESETS the accumulator (dropping the
nodes of every earlier sibling of this level) and moves on. -/
def linearizeChildren (recur : LinArgs → List TreeThought) (state : State) (ctx : LinCtx) :
    List Thought → Nat → List TreeThought → Bool → List TreeThought × Bool
  | [], _, accum, belowCursor => (accum, belowCursor)
  | filteredChild :: restChildren, i, accum, belowCursor =>
    -- if the context view is active, render the context's parent instead
    match childResolved state ctx filteredChild with
    | none =>
      -- context thought may still be pending: `return []`
      linearizeChildren recur state ctx restChildren (i + 1) [] belowCursor
    | some child =>
      let virtualIndexNew := linVirtualIndexNew ctx i accum
      let belowCursor1 :=
        linBelowCursor1 state belowCursor (appendToPathMemo ctx.path child.id)
      let node := linNode state ctx filteredChild child i virtualIndexNew belowCursor1
      -- RECURSION
      let descendants := recur (linRecArgs state ctx filteredChild child virtualIndexNew belowCursor1)
      linearizeChildren recur state ctx restChildren (i + 1)
        (accum ++ [node] ++ descendants) (linNextFlag belowCursor1 descendants)

/-- `linearizeTree`: recursively calculates the tree of visible thoughts, in
order, as a flat list with tree layout information. General recursion is
bounded by explicit `fuel` (the JS recursion terminates because the visible
tree is finite; every theorem quantifies over the fuel). -/
def linearizeTree : Nat → State → LinArgs → List TreeThought
  | 0, _, _ => []
  | Nat.succ fuel, state, args =>
    let path := args.basePath.getD HOME_PATH
    if !isRoot path && !state.expanded path && !state.expandHoverDownPaths path then []
    else
      let thoughtId := headId path
      let thought := state.getThoughtById thoughtId
      let simplePath := state.simplifyPath path
      let contextViewActive := state.isContextViewActive path
      let contextChainNew :=
        if contextViewActive then args.contextChain ++ [simplePath] else args.contextChain
      let children := if contextViewActive
        then state.getContextsSortedAndRanked (match thought with
          | some t => t.value
          | none => "")
        else state.getChildrenRanked (args.contextId.getD thoughtId)
      let filteredChildren := children.filter (state.childrenFilterPredicate simplePath)
      -- short circuit if the context view only has one context
      if contextViewActive && filteredChildren.length == 1 then []
      else
        let childrenAttributeId := state.findDescendant thoughtId "=children"
        let grandchildrenAttributeId := state.findDescendant thoughtId "=grandchildren"
        let styleChildren := state.getStyle childrenAttributeId
        let style := safeRefMerge3 args.styleAccum styleChildren args.styleFromGrandparent
        (linearizeChildren (linearizeTree fuel state) state
          { path := path
            simplePath := simplePath
            contextViewActive := contextViewActive
            contextChain := args.contextChain
            contextChainNew := contextChainNew
            depth := args.depth
            env := args.env
            indexDescendant := args.indexDescendant
            style := style
            styleAccumRec := safeRefMerge3 args.styleAccum
              (some (pickAccumStyle styleChildren))
              (some (pickAccumStyle (state.getStyle grandchildrenAttributeId)))
            styleFromGrandparentRec := state.getStyle grandchildrenAttributeId
            filteredChildren := filteredChildren }
          filteredChildren 0 [] args.belowCursor).1

/-! ## Positioning pass (`LayoutTree`, 2nd pass) -/

/-- A measured size reported by a `VirtualThought` (the `sizes` cache). -/
structure Size where
  height : Rat
  width : Option Rat
  isVisible : Bool
deriving DecidableEq

/-- 2nd pass: a thought with position information (`TreeThoughtPositioned`). -/
structure TreeThoughtPositioned extends TreeThought where
  cliff : Int
  height : Rat
  parentWidth : Rat
  singleLineHeightWithCliff : Rat
  width : Option Rat
  x : Rat
  y : Rat
deriving DecidableEq

/-- The `treeThoughts.map((node, i) => ...)` of `treeThoughtsPositioned`,
with the closure-mutated `yaccum` and `tableCol1Widths` made explicit
arguments. `tableCol1Widths` is a string-keyed map; `Map.set` is modelled by
prepending (first match wins on lookup). `tableCol1Widths.get(key) ||
Infinity` only turns a missing entry into `Infinity` (stored widths are
positive by the `> 0` guard), so `Math.min(_, maxTableColumnWidth)` becomes
`maxTableColumnWidth` exactly when the entry is missing. -/
def positionFrom (sizes : String → Option Size) (fontSize singleLineHeight : Rat) :
    Rat → List (String × Rat) → List TreeThought → List TreeThoughtPositioned
  | _, _, [] => []
  | yaccum, tableCol1Widths, node :: rest =>
    -- cliff: the number of levels that drop off before the next thought
    let cliff : Int := match rest with
      | next :: _ => min 0 ((next.depth : Int) - (node.depth : Int))
      | [] => -(node.depth : Int) - 1
    let singleLineHeightWithCliff := singleLineHeight + (if cliff < 0 then fontSize / 4 else 0)
    let height := match sizes node.key with
      | some s => s.height
      | none => singleLineHeightWithCliff
    -- column-1 width of a table keyed by the thought with the table attribute
    let tableCol1Widths' := match node.visibleChildrenKeys with
      | some keys =>
        let tableCol1Width := keys.foldl
          (fun accum childKey => max accum (((sizes childKey).bind Size.width).getD 0)) 0
        if tableCol1Width > 0 then (node.key, tableCol1Width) :: tableCol1Widths
        else tableCol1Widths
      | none => tableCol1Widths
    let maxTableColumnWidth := fontSize * 10
    let parentWidth := match lookupKey tableCol1Widths' node.grandparentKey with
      | some w => min w maxTableColumnWidth
      | none => maxTableColumnWidth
    let x := fontSize * ((node.depth : Rat)
        + (if node.isTableCol1 then -(3 : Rat) / 2 else if node.isTableCol2 then 1 / 2 else 0))
      + (if node.isTableCol2 then parentWidth else 0)
    let y := yaccum
    { node with
      cliff := cliff
      height := height
      parentWidth := parentWidth
      singleLineHeightWithCliff := singleLineHeightWithCliff
      width := lookupKey tableCol1Widths' node.parentKey
      x := x
      y := y }
      :: positionFrom sizes fontSize singleLineHeight
        (if node.isTableCol1 then yaccum else yaccum + height) tableCol1Widths' rest

/-- `treeThoughtsPositioned`: the positioning pass over the linearized list,
starting with `yaccum = 0` and an empty table-column-width cache. -/
def positionThoughts (sizes : String → Option Size) (fontSize singleLineHeight : Rat)
    (treeThoughts : List TreeThought) : List TreeThoughtPositioned :=
  positionFrom sizes fontSize singleLineHeight 0 [] treeThoughts

/-! ## Predicates for the linearization claims -/

/-- The expansion gate of `linearizeTree`: a path contributes children only
when it is the root, expanded, or pinned open by hover-to-expand. -/
def gateOK (state : State) (path : IdPath) : Prop :=
  isRoot path = true ∨ state.expanded path = true ∨ state.expandHoverDownPaths path = true

/-- `belowCursor` correctness along an emitted list, given the flag value
`b` inherited when the first node was emitted: each node's flag is the
previous node's flag, switched on when the node's own path is the cursor. -/
def belowSeq (cursor : Option IdPath) : Bool → List TreeThought → Prop
  | _, [] => True
  | b, node :: rest =>
    node.belowCursor = (b || (cursor == some node.path)) ∧ belowSeq cursor node.belowCursor rest

/-- The flag after traversing an emitted list whose first node inherited
flag `b`: the last node's flag, or `b` when nothing was emitted. -/
def endFlag (b : Bool) (l : List TreeThought) : Bool :=
  match l.getLast? with
  | some node => node.belowCursor
  | none => b

/-- A store state in which every context entry's parent thought record is
present (nothing is pending), so the `!child` reset branch of the reduce is
never taken. -/
def NoMissingContextParent (state : State) : Prop :=
  ∀ value : String, ∀ c ∈ state.getContextsSortedAndRanked value,
    (state.getThoughtById c.parentId).isSome = true

/-! ## Concrete stores for counterexamples and witnesses -/

/-- A plain chain `HOME → a(1) → b(2) → {c(3), d(4)}`, everything expanded,
no context view, no cursor. -/
def exStateC1 : State where
  expanded := fun _ => true
  expandHoverDownPaths := fun _ => false
  cursor := none
  getThoughtById := fun id =>
    if id = 1 then some ⟨1, "a", 0⟩
    else if id = 2 then some ⟨2, "b", 1⟩
    else if id = 3 then some ⟨3, "c", 2⟩
    else if id = 4 then some ⟨4, "d", 2⟩
    else if id = 0 then some ⟨0, "", 0⟩
    else none
  getChildrenRanked := fun id =>
    if id = 0 then [⟨1, "a", 0⟩]
    else if id = 1 then [⟨2, "b", 1⟩]
    else if id = 2 then [⟨3, "c", 2⟩, ⟨4, "d", 2⟩]
    else []
  getContextsSortedAndRanked := fun _ => []
  isContextViewActive := fun _ => false
  childrenFilterPredicate := fun _ _ => true
  simplifyPath := fun p => p
  findDescendant := fun _ _ => none
  getStyle := fun _ => none
  parseLet := fun _ => []
  attributeEquals := fun _ _ _ => false
  hasChildren := fun id => id == 0 || id == 1 || id == 2
  getChildren := fun _ => []
  thoughtToPath := fun id => [id]
  rootedParentOf := fun p => if p.length ≤ 1 then HOME_PATH else p.dropLast

/-- A store with the context view active on `m(1)` (a child of the root):
`m` has three contexts, whose parents are `p1(5)`, the not-yet-loaded `6`,
and `p3(7)`; the cursor sits on the first context (`[1, 5]`). Only the root
and `[1]` are expanded. -/
def exStateDrop : State where
  expanded := fun p => p == [1]
  expandHoverDownPaths := fun _ => false
  cursor := some [1, 5]
  getThoughtById := fun id =>
    if id = 0 then some ⟨0, "", 0⟩
    else if id = 1 then some ⟨1, "m", 0⟩
    else if id = 5 then some ⟨5, "p1", 9⟩
    else if id = 7 then some ⟨7, "p3", 9⟩
    else none
  getChildrenRanked := fun id => if id = 0 then [⟨1, "m", 0⟩] else []
  getContextsSortedAndRanked := fun value =>
    if value = "m" then [⟨11, "m", 5⟩, ⟨12, "m", 6⟩, ⟨13, "m", 7⟩] else []
  isContextViewActive := fun p => p == [1]
  childrenFilterPredicate := fun _ _ => true
  simplifyPath := fun p => p
  findDescendant := fun _ _ => none
  getStyle := fun _ => none
  parseLet := fun _ => []
  attributeEquals := fun _ _ _ => false
  hasChildren := fun id => id == 0 || id == 1
  getChildren := fun _ => []
  thoughtToPath := fun id => [id]
  rootedParentOf := fun p => if p.length ≤ 1 then HOME_PATH else p.dropLast

/-- Two sibling leaves `a(1)`, `b(2)` under the root, cursor on `a`; no
context view, so `NoMissingContextParent` holds. -/
def exStateCursor : State where
  expanded := fun _ => true
  expandHoverDownPaths := fun _ => false
  cursor := some [2]
  getThoughtById := fun id =>
    if id = 1 then some ⟨1, "a", 0⟩
    else if id = 2 then some ⟨2, "b", 0⟩
    else if id = 0 then some ⟨0, "", 0⟩
    else none
  getChildrenRanked := fun id =>
    if id = 0 then [⟨1, "a", 0⟩, ⟨2, "b", 0⟩, ⟨3, "c", 0⟩] else []
  getContextsSortedAndRanked := fun _ => []
  isContextViewActive := fun _ => false
  childrenFilterPredicate := fun _ _ => true
  simplifyPath := fun p => p
  findDescendant := fun _ _ => none
  getStyle := fun _ => none
  parseLet := fun _ => []
  attributeEquals := fun _ _ _ => false
  hasChildren := fun id => id == 0
  getChildren := fun _ => []
  thoughtToPath := fun id => [id]
  rootedParentOf := fun _ => HOME_PATH

/-- A placeholder `TreeThought` for witnesses of the positioning claims. -/
def treeThoughtEx (depth : Nat) (key : String) (isTableCol1 : Bool) : TreeThought where
  belowCursor := false
  depth := depth
  env := none
  grandparentKey := ""
  indexChild := 0
  indexDescendant := 0
  isTableCol1 := isTableCol1
  isTableCol2 := false
  key := key
  leaf := true
  parentKey := ""
  path := [1]
  prevChild := none
  showContexts := false
  simplePath := [1]
  style := none
  thought := ⟨1, "a", 0⟩
  visibleChildrenKeys := none

/-- The effective base of child paths appended to `path`: `appendToPath`
replaces a root path instead of extending it. -/
def basePrefix (path : IdPath) : IdPath :=
  if isRoot path then [] else path

/-- A node of the linearization whose path extends `base` by at least one id
and whose intermediate ancestors (strictly between `base` and the node) all
passed the expansion gate. -/
def GatedFrom (state : State) (base : IdPath) (node : TreeThought) : Prop :=
  ∃ ids : List ThoughtId, ids ≠ [] ∧ node.path = base ++ ids
    ∧ ∀ j, 1 ≤ j → j < ids.length → gateOK state (base ++ ids.take j)

/-- A batch targeting both destinations, for the C7 witness. -/
def batchEx7 : SyncBatch Nat Nat Nat Nat where
  localFlag := some true
  remoteFlag := some true

/-! ## Association-list lemmas (object spread semantics) -/

theorem lookupKey_append {V : Type} (l₁ l₂ : List (String × V)) (k : String) :
    lookupKey (l₁ ++ l₂) k = jsOr (lookupKey l₁ k) (lookupKey l₂ k) := by
  induction l₁ with
  | nil => simp [lookupKey, jsOr]
  | cons p rest ih =>
    obtain ⟨k', v⟩ := p
    by_cases h : k = k' <;> simp [lookupKey, h, jsOr, ih]

theorem containsKey_eq_isSome_lookupKey {V : Type} (l : List (String × V)) (k : String) :
    containsKey l k = (lookupKey l k).isSome := by
  induction l with
  | nil => rfl
  | cons p rest ih =>
    obtain ⟨k', v⟩ := p
    by_cases h : k = k' <;> simp [lookupKey, containsKey, h, ih]

theorem lookupKey_mapOverride {V : Type} (a b : List (String × V)) (k : String) :
    lookupKey (a.map (fun p => (p.1, (lookupKey b p.1).getD p.2))) k
      = (lookupKey a k).map (fun v => (lookupKey b k).getD v) := by
  induction a with
  | nil => rfl
  | cons p rest ih =>
    obtain ⟨k', v⟩ := p
    by_cases h : k = k' <;> simp [lookupKey, h, ih]

theorem lookupKey_filterNotContains {V : Type} (a b : List (String × V)) (k : String) :
    lookupKey (b.filter (fun p => !containsKey a p.1)) k
      = if containsKey a k then none else lookupKey b k := by
  induction b with
  | nil => simp [lookupKey]
  | cons p rest ih =>
    obtain ⟨k', v⟩ := p
    by_cases hk : containsKey a k' = true
    · by_cases h : k = k'
      · subst h
        simp [List.filter, hk, ih, lookupKey]
      · simp [List.filter, hk, ih, lookupKey, h]
    · by_cases h : k = k'
      · subst h
        simp [List.filter, hk, ih, lookupKey]
      · simp [List.filter, hk, ih, lookupKey, h]

theorem lookupKey_objSpread {V : Type} (a b : List (String × V)) (k : String) :
    lookupKey (objSpread a b) k = jsOr (lookupKey b k) (lookupKey a k) := by
  rw [objSpread, lookupKey_append, lookupKey_mapOverride, lookupKey_filterNotContains]
  rcases ha : lookupKey a k with _ | v
  · have : containsKey a k = false := by simp [containsKey_eq_isSome_lookupKey, ha]
    rcases hb : lookupKey b k with _ | w <;> simp [jsOr, this]
  · have : containsKey a k = true := by simp [containsKey_eq_isSome_lookupKey, ha]
    rcases hb : lookupKey b k with _ | w <;> simp [jsOr, this]

theorem containsKey_append {V : Type} (l₁ l₂ : List (String × V)) (k : String) :
    containsKey (l₁ ++ l₂) k = (containsKey l₁ k || containsKey l₂ k) := by
  induction l₁ with
  | nil => rfl
  | cons p rest ih =>
    obtain ⟨k', v⟩ := p
    by_cases h : k = k' <;> simp [containsKey, h, ih]

theorem containsKey_mapOverride {V : Type} (a b : List (String × V)) (k : String) :
    containsKey (a.map (fun p => (p.1, (lookupKey b p.1).getD p.2))) k = containsKey a k := by
  induction a with
  | nil => rfl
  | cons p rest ih =>
    obtain ⟨k', v⟩ := p
    by_cases h : k = k' <;> simp [containsKey, h, ih]

theorem containsKey_filterNotContains {V : Type} (a b : List (String × V)) (k : String) :
    containsKey (b.filter (fun p => !containsKey a p.1)) k
      = (!containsKey a k && containsKey b k) := by
  induction b with
  | nil => simp [containsKey]
  | cons p rest ih =>
    obtain ⟨k', v⟩ := p
    by_cases hk : containsKey a k' = true
    · by_cases h : k = k'
      · subst h
        simp [List.filter, hk, ih, containsKey]
      · simp [List.filter, hk, ih, containsKey, h]
    · by_cases h : k = k'
      · subst h
        simp [List.filter, hk, containsKey]
      · simp [List.filter, hk, ih, containsKey, h]

theorem containsKey_objSpread {V : Type} (a b : List (String × V)) (k : String) :
    containsKey (objSpread a b) k = (containsKey a k || containsKey b k) := by
  rw [objSpread, containsKey_append, containsKey_mapOverride, containsKey_filterNotContains]
  cases containsKey a k <;> simp

/-! ## Claim C6: `mergeBatch` is last-write-wins per key, concat on deletes -/

/-- C6. For any two `SyncBatch`es, `mergeBatch` yields, in each of the
`thoughtIndexUpdates`, `contextIndexUpdates` and `recentlyEdited` maps, the
union of the two batches' keys with the second batch's value for every
overlapping key (lookup in the merge is "second batch first"), and yields
the concatenation, without deduplication, of the two `pendingDeletes`
lists. -/
theorem c6_mergeBatch_lastWriteWins {α β γ δ : Type} (a b : SyncBatch α β γ δ) (k : String) :
    lookupKey (mergeBatch a b).thoughtIndexUpdates k
        = jsOr (lookupKey b.thoughtIndexUpdates k) (lookupKey a.thoughtIndexUpdates k)
      ∧ lookupKey (mergeBatch a b).contextIndexUpdates k
        = jsOr (lookupKey b.contextIndexUpdates k) (lookupKey a.contextIndexUpdates k)
      ∧ lookupKey (mergeBatch a b).recentlyEdited k
        = jsOr (lookupKey b.recentlyEdited k) (lookupKey a.recentlyEdited k)
      ∧ containsKey (mergeBatch a b).thoughtIndexUpdates k
        = (containsKey a.thoughtIndexUpdates k || containsKey b.thoughtIndexUpdates k)
      ∧ containsKey (mergeBatch a b).contextIndexUpdates k
        = (containsKey a.contextIndexUpdates k || containsKey b.contextIndexUpdates k)
      ∧ containsKey (mergeBatch a b).recentlyEdited k
        = (containsKey a.recentlyEdited k || containsKey b.recentlyEdited k)
      ∧ (mergeBatch a b).pendingDeletes = a.pendingDeletes ++ b.pendingDeletes := by
  refine ⟨?_, ?_, ?_, ?_, ?_, ?_, rfl⟩ <;>
    simp [mergeBatch, lookupKey_objSpread, containsKey_objSpread]

/-! ## Claim C7: destination flags of a merged queue -/

theorem foldl_mergeBatch_flags {α β γ δ : Type} (l : List (SyncBatch α β γ δ))
    (last init : SyncBatch α β γ δ) :
    ((l ++ [last]).foldl mergeBatch init).localFlag = some (last.localFlag != some false)
      ∧ ((l ++ [last]).foldl mergeBatch init).remoteFlag
        = some (last.remoteFlag != some false) := by
  simp [List.foldl_append, mergeBatch]

/-- C7. When merging a sequence of `SyncBatch`es (the
`reduce(mergeBatch, {})` of `flushQueue`), the merged batch's local
(respectively remote) destination flag is true whenever some batch in the
merge targets that destination and no batch's flag is explicitly `false`. -/
theorem c7_sticky_flags {α β γ δ : Type} (batches : List (SyncBatch α β γ δ)) :
    ((∃ b ∈ batches, b.localFlag = some true) →
      (∀ b ∈ batches, b.localFlag ≠ some false) →
      (batches.foldl mergeBatch emptyBatch).localFlag = some true)
    ∧ ((∃ b ∈ batches, b.remoteFlag = some true) →
      (∀ b ∈ batches, b.remoteFlag ≠ some false) →
      (batches.foldl mergeBatch emptyBatch).remoteFlag = some true) := by
  constructor
  · rintro ⟨b, hb, -⟩ hall
    rcases List.eq_nil_or_concat batches with h | ⟨l, last, rfl⟩
    · subst h; simp at hb
    · have hlast : last ∈ l ++ [last] := by simp
      rw [List.concat_eq_append] at hall ⊢
      rw [(foldl_mergeBatch_flags l last emptyBatch).1]
      simp [bne_iff_ne, hall last hlast]
  · rintro ⟨b, hb, -⟩ hall
    rcases List.eq_nil_or_concat batches with h | ⟨l, last, rfl⟩
    · subst h; simp at hb
    · have hlast : last ∈ l ++ [last] := by simp
      rw [List.concat_eq_append] at hall ⊢
      rw [(foldl_mergeBatch_flags l last emptyBatch).2]
      simp [bne_iff_ne, hall last hlast]

/-- Witness for C7 at a concrete queue. -/
theorem c7_sticky_flags_witness :
    (([batchEx7, emptyBatch].foldl mergeBatch emptyBatch).localFlag = some true)
      ∧ (([batchEx7, emptyBatch].foldl mergeBatch emptyBatch).remoteFlag = some true) :=
  ⟨(c7_sticky_flags [batchEx7, emptyBatch]).1
      ⟨batchEx7, by simp, rfl⟩ (by decide),
    (c7_sticky_flags [batchEx7, emptyBatch]).2
      ⟨batchEx7, by simp, rfl⟩ (by decide)⟩

/-! ## Claim C5: flush ordering -/

theorem deletesAfterPull_of_true {α β γ δ : Type} (l : List (FlushEvent α β γ δ)) :
    deletesAfterPull true l = true := by
  induction l with
  | nil => rfl
  | cons e rest ih => cases e <;> simp [deletesAfterPull, ih]

theorem deletesAfterPull_of_noDeletes {α β γ δ : Type} (l : List (FlushEvent α β γ δ))
    (b : Bool) (h : ∀ e ∈ l, e.isDeleteDispatch = false) : deletesAfterPull b l = true := by
  induction l generalizing b with
  | nil => rfl
  | cons e rest ih =>
    cases e with
    | pull p d => simpa [deletesAfterPull] using deletesAfterPull_of_true rest
    | deleteDispatch c ch =>
      exact absurd (h _ (List.mem_cons_self _ _)) (by simp [FlushEvent.isDeleteDispatch])
    | syncDispatch bb =>
      simp only [deletesAfterPull]
      apply ih
      exact fun e he => h e (List.mem_cons_of_mem _ he)

theorem syncsBeforeDeletes_append_left {α β γ δ : Type}
    (l₁ l₂ : List (FlushEvent α β γ δ)) (h : ∀ e ∈ l₁, e.isDeleteDispatch = false) :
    syncsBeforeDeletes (l₁ ++ l₂) = syncsBeforeDeletes l₂ := by
  induction l₁ with
  | nil => rfl
  | cons e rest ih =>
    cases e with
    | pull p d =>
      simpa [syncsBeforeDeletes] using ih (fun e he => h e (List.mem_cons_of_mem _ he))
    | deleteDispatch c ch =>
      exact absurd (h _ (List.mem_cons_self _ _)) (by simp [FlushEvent.isDeleteDispatch])
    | syncDispatch bb =>
      simpa [syncsBeforeDeletes] using ih (fun e he => h e (List.mem_cons_of_mem _ he))

theorem syncsBeforeDeletes_of_noSyncs {α β γ δ : Type} (l : List (FlushEvent α β γ δ))
    (h : ∀ e ∈ l, e.isSyncDispatch = false) : syncsBeforeDeletes l = true := by
  induction l with
  | nil => rfl
  | cons e rest ih =>
    have hrest := ih (fun e he => h e (List.mem_cons_of_mem _ he))
    cases e with
    | pull p d => simpa [syncsBeforeDeletes] using hrest
    | deleteDispatch c ch =>
      simp only [syncsBeforeDeletes, hrest, Bool.and_true]
      exact List.all_eq_true.mpr
        (fun e he => by simp [h e (List.mem_cons_of_mem _ he)])
    | syncDispatch bb =>
      exact absurd (h _ (List.mem_cons_self _ _)) (by simp [FlushEvent.isSyncDispatch])

theorem flushDeletesPost_eq {α β γ δ : Type} (syncQueue : List (SyncBatch α β γ δ)) :
    flushDeletesPost syncQueue
      = (queuePendingDeletes syncQueue).map
        (fun pd => FlushEvent.deleteDispatch pd.context pd.child) := by
  rw [flushDeletesPost]
  split
  · rfl
  · rename_i h
    have : queuePendingDeletes syncQueue = [] := by
      rcases List.eq_nil_or_concat (queuePendingDeletes syncQueue) with h0 | ⟨l, x, hx⟩
      · exact h0
      · exact absurd (by simp [hx]) h
    simp [this]

/-- Every event of the sync-dispatch segment of the trace is a sync
dispatch. -/
theorem mem_syncSegment {α β γ δ : Type} (cL cR : Prop) [Decidable cL] [Decidable cR]
    (lm rm : SyncBatch α β γ δ) (e : FlushEvent α β γ δ)
    (he : e ∈ (if cL then [FlushEvent.syncDispatch lm] else [])
      ++ (if cR then [FlushEvent.syncDispatch rm] else [])) :
    e.isSyncDispatch = true := by
  rcases List.mem_append.mp he with h | h <;>
    [skip; skip] <;> split at h <;> simp_all [FlushEvent.isSyncDispatch]

/-- C5 amended. On every flush (any queue), the dispatch trace satisfies:
the `pull` of pending-delete contexts precedes every finalizing delete; all
`sync` dispatches of the merged local/remote batches precede every
finalizing delete (NOT the other way around, as originally claimed); the
finalizing deletes are exactly one `existingThoughtDelete` per pending child,
in queue order; there are at most two `sync` dispatches (one per merged
destination batch); and any `pull` in the trace targets all pending-delete
contexts with unbounded depth. -/
theorem c5_flush_order {α β γ δ : Type} (hashContext : Context → String)
    (syncQueue : List (SyncBatch α β γ δ)) :
    deletesAfterPull false (flushQueueTrace hashContext syncQueue) = true
      ∧ syncsBeforeDeletes (flushQueueTrace hashContext syncQueue) = true
      ∧ (flushQueueTrace hashContext syncQueue).filter FlushEvent.isDeleteDispatch
        = (queuePendingDeletes syncQueue).map
          (fun pd => FlushEvent.deleteDispatch pd.context pd.child)
      ∧ (flushQueueTrace hashContext syncQueue).countP FlushEvent.isSyncDispatch ≤ 2
      ∧ (∀ pending unboundedDepth,
          FlushEvent.pull pending unboundedDepth ∈ flushQueueTrace hashContext syncQueue →
          unboundedDepth = true
            ∧ pending = pendingPullArg hashContext (queuePendingDeletes syncQueue)) := by
  rw [flushQueueTrace]
  split
  · refine ⟨rfl, rfl, ?_, by simp, by simp⟩
    rename_i hlen
    have : syncQueue = [] := List.length_eq_zero.mp hlen
    subst this
    simp [queuePendingDeletes]
  · rename_i hlen
    have hpost := flushDeletesPost_eq syncQueue
    have hpredel : ∀ e ∈ flushDeletesPre hashContext syncQueue, e.isDeleteDispatch = false := by
      intro e he
      rw [flushDeletesPre] at he
      split at he <;> simp_all [FlushEvent.isDeleteDispatch]
    have hpresync : ∀ e ∈ flushDeletesPre hashContext syncQueue, e.isSyncDispatch = false := by
      intro e he
      rw [flushDeletesPre] at he
      split at he <;> simp_all [FlushEvent.isSyncDispatch]
    have hpostdel : ∀ e ∈ flushDeletesPost syncQueue, e.isDeleteDispatch = true := by
      intro e he
      rw [hpost] at he
      obtain ⟨pd, -, rfl⟩ := List.mem_map.mp he
      rfl
    have hpostsync : ∀ e ∈ flushDeletesPost syncQueue, e.isSyncDispatch = false := by
      intro e he
      rw [hpost] at he
      obtain ⟨pd, -, rfl⟩ := List.mem_map.mp he
      rfl
    have hmidsync : ∀ e ∈
        ((if (syncQueue.filter (fun batch => batch.localFlag == some true)).length > 0
            then [FlushEvent.syncDispatch
              ((syncQueue.filter (fun batch => batch.localFlag == some true)).foldl
                mergeBatch emptyBatch)] else [])
          ++ (if (syncQueue.filter (fun batch => batch.remoteFlag == some true)).length > 0
            then [FlushEvent.syncDispatch
              ((syncQueue.filter (fun batch => batch.remoteFlag == some true)).foldl
                mergeBatch emptyBatch)] else [])),
        e.isSyncDispatch = true := fun e he => mem_syncSegment _ _ _ _ e he
    dsimp only
    refine ⟨?_, ?_, ?_, ?_, ?_⟩
    · -- pull precedes finalizing deletes
      by_cases hpd : (queuePendingDeletes syncQueue).length ≠ 0
      · rw [flushDeletesPre]
        simp only [queuePendingDeletes] at hpd ⊢
        rw [if_pos hpd]
        simpa [deletesAfterPull] using deletesAfterPull_of_true _
      · push_neg at hpd
        have hnil : queuePendingDeletes syncQueue = [] := List.length_eq_zero.mp hpd
        apply deletesAfterPull_of_noDeletes
        intro e he
        rcases List.mem_append.mp he with h | h
        · rcases List.mem_append.mp h with h' | h'
          · exact hpredel e h'
          · have := hmidsync e h'
            cases e <;> simp_all [FlushEvent.isSyncDispatch, FlushEvent.isDeleteDispatch]
        · rw [hpost, hnil] at h
          simp at h
    · -- syncs before deletes
      rw [List.append_assoc]
      refine (syncsBeforeDeletes_append_left _ _ hpredel).trans
        ((syncsBeforeDeletes_append_left _ _ ?_).trans
          (syncsBeforeDeletes_of_noSyncs _ hpostsync))
      intro e he
      have := hmidsync e he
      cases e <;> simp_all [FlushEvent.isSyncDispatch, FlushEvent.isDeleteDispatch]
    · -- the finalizing deletes, in order
      rw [List.filter_append, List.filter_append]
      rw [List.filter_eq_nil_iff.mpr (fun e he => by simp [hpredel e he]),
        List.filter_eq_nil_iff.mpr (fun e he => by
          have := hmidsync e he
          cases e <;> simp_all [FlushEvent.isSyncDispatch, FlushEvent.isDeleteDispatch]),
        List.filter_eq_self.mpr hpostdel]
      simpa using hpost
    · -- at most two sync dispatches
      rw [List.countP_append, List.countP_append]
      have h1 : (flushDeletesPre hashContext syncQueue).countP FlushEvent.isSyncDispatch = 0 :=
        List.countP_eq_zero.mpr (fun e he => by simp [hpresync e he])
      have h3 : (flushDeletesPost syncQueue).countP FlushEvent.isSyncDispatch = 0 :=
        List.countP_eq_zero.mpr (fun e he => by simp [hpostsync e he])
      have h2 : ∀ (l₁ l₂ : List (FlushEvent α β γ δ)),
          l₁.length ≤ 1 → l₂.length ≤ 1 →
          (l₁ ++ l₂).countP FlushEvent.isSyncDispatch ≤ 2 := by
        intro l₁ l₂ hl₁ hl₂
        calc (l₁ ++ l₂).countP FlushEvent.isSyncDispatch ≤ (l₁ ++ l₂).length :=
              List.countP_le_length _
          _ ≤ 2 := by simp; omega
      rw [h1, h3]
      simp only [Nat.zero_add, Nat.add_zero]
      apply h2 <;> split <;> simp
    · -- any pull targets all pending contexts, unbounded
      intro pending unboundedDepth hmem
      rcases List.mem_append.mp hmem with h | h
      · rcases List.mem_append.mp h with h' | h'
        · rw [flushDeletesPre] at h'
          split at h'
          · have heq := List.mem_singleton.mp h'
            injection heq with h1 h2
            exact ⟨h2, h1⟩
          · exact absurd h' (List.not_mem_nil _)
        · have := hmidsync _ h'
          simp [FlushEvent.isSyncDispatch] at this
      · have := hpostdel _ h
        simp [FlushEvent.isDeleteDispatch] at this

/-- Counterexample to C5 as stated: with a one-batch queue holding one
pending delete and local updates, the flush trace dispatches the merged
`sync` BEFORE the finalizing delete (the un-awaited `flushDeletes` only gets
to run its `pull` before `flushQueue` proceeds), so the claimed
"deletes fully resolved first, only after that merged and dispatched"
ordering is violated. -/
theorem c5_counterexample :
    deletesBeforeSyncs (flushQueueTrace hashContextEx [batchEx]) = false
      ∧ (flushQueueTrace hashContextEx [batchEx]).countP FlushEvent.isDeleteDispatch = 1
      ∧ (flushQueueTrace hashContextEx [batchEx]).countP FlushEvent.isSyncDispatch = 1 := by
  decide

/-- Witness for C5 at the concrete one-batch queue. -/
theorem c5_flush_order_witness :
    deletesAfterPull false (flushQueueTrace hashContextEx [batchEx]) = true
      ∧ syncsBeforeDeletes (flushQueueTrace hashContextEx [batchEx]) = true
      ∧ (true = true
        ∧ [("a", ["a"])] = pendingPullArg hashContextEx (queuePendingDeletes [batchEx])) :=
  ⟨(c5_flush_order hashContextEx [batchEx]).1,
    (c5_flush_order hashContextEx [batchEx]).2.1,
    (c5_flush_order hashContextEx [batchEx]).2.2.2.2 [("a", ["a"])] true (by decide)⟩

/-! ## Claim C2: structure of the `chain` merge -/

theorem findIdx?_go_bound {α : Type} (p : α → Bool) :
    ∀ (l : List α) (n i : Nat), List.findIdx? p l n = some i → n ≤ i ∧ i - n < l.length := by
  intro l
  induction l with
  | nil => intro n i h; simp [List.findIdx?] at h
  | cons x xs ih =>
    intro n i h
    simp only [List.findIdx?] at h
    by_cases hp : p x = true
    · rw [if_pos hp] at h
      injection h with h
      subst h
      simp
    · rw [if_neg hp] at h
      have := ih (n + 1) i h
      simp only [List.length_cons]
      omega

theorem findIdx?_some_lt_length {α : Type} (p : α → Bool) (l : List α) (i : Nat)
    (h : l.findIdx? p = some i) : i < l.length := by
  have := findIdx?_go_bound p l 0 i h
  omega

theorem enumFrom_map_dropFirstIdx {α : Type} (f : α → α) :
    ∀ (l : List α) (n : Nat),
      (List.enumFrom (n + 1) l).map (fun p => if p.1 > 0 then f p.2 else p.2) = l.map f := by
  intro l
  induction l with
  | nil => intro n; rfl
  | cons x xs ih =>
    intro n
    simp only [List.enumFrom, List.map]
    rw [if_pos (Nat.succ_pos n)]
    rw [ih (n + 1)]

theorem enum_cons_map_dropFirstIdx {α : Type} (f : α → α) (x : α) (l : List α) :
    (x :: l).enum.map (fun p => if p.1 > 0 then f p.2 else p.2) = x :: l.map f := by
  simp only [List.enum, List.enumFrom, List.map]
  rw [if_neg (by omega)]
  exact congrArg _ (enumFrom_map_dropFirstIdx f l 0)

theorem enumSpliceFlatten (x : SimplePath) (l : List SimplePath) :
    ((x :: l).enum.map (fun p => if p.1 > 0 then jsSplice p.2 1 1 else p.2)).flatten
      = x ++ (l.map (fun seg => seg.take 1 ++ seg.drop 2)).flatten := by
  rw [enum_cons_map_dropFirstIdx (fun seg => jsSplice seg 1 1), List.flatten_cons]
  have hfun : (fun seg : SimplePath => jsSplice seg 1 1)
      = (fun seg : SimplePath => seg.take 1 ++ seg.drop 2) := by
    funext seg
    simp [jsSplice]
  rw [hfun]

/-- C2 amended. For every non-empty context chain whose pivot (the last
segment's terminal thought) is matched in the path at index `i ≥ 1` by
normalized value, `chain` concatenates the first segment intact with all
later chain segments and the (re-ranked) append tail
`chainAppendTail state path pivot i` (the path from one position before the
pivot match, inclusive), where every segment after the first drops its
element at INDEX 1 — the duplicated pivot, the 1-element overlap with the
previous segment — not its first element, before flattening. -/
theorem c2_chain_structure (state : ChainState) (s0 : SimplePath) (rest : List SimplePath)
    (path : SimplePath) (pivot : Child) (i : Nat)
    (hpivot : jsHead ((s0 :: rest).getLastD []) = some pivot)
    (hfind : path.findIdx?
        (fun child =>
          state.normalizeThought child.value == state.normalizeThought pivot.value)
      = some i)
    (hi : 1 ≤ i) :
    chain state (s0 :: rest) path
      = s0 ++ ((rest ++ [chainAppendTail state path pivot i]).map
        (fun seg => seg.take 1 ++ seg.drop 2)).flatten := by
  have hlen : i < path.length := findIdx?_some_lt_length _ _ _ hfind
  unfold chain
  rw [if_neg (by simp)]
  rw [hpivot]
  dsimp only
  rw [jsFindIndex, hfind]
  have hslice : jsSlice path ((i : Int) - 1) = path.drop (i - 1) := by
    rw [jsSlice, if_neg (by omega)]
    congr 1
    omega
  rw [hslice]
  rcases hD : path.drop (i - 1) with _ | ⟨a0, arest⟩
  · exfalso
    have := congrArg List.length hD
    simp at this
    omega
  · rw [chainAppendTail, hD]
    dsimp only
    exact enumSpliceFlatten s0 _

/-- Counterexample to C2 as stated: on the concrete input below, `chain`
keeps the append tail's first element `x` and drops the element at index 1
(the pivot `m`), while the spec's wording ("drop the first element of every
segment after the first") would keep the duplicated pivot and produce
`[a, m, m, c]`. -/
theorem c2_counterexample :
    chain chainStateEx [[⟨"a", 0⟩, ⟨"m", 0⟩]] [⟨"x", 0⟩, ⟨"m", 0⟩, ⟨"c", 0⟩]
        = [⟨"a", 0⟩, ⟨"m", 0⟩, ⟨"x", 0⟩, ⟨"c", 0⟩]
      ∧ chainPerSpecWords chainStateEx [[⟨"a", 0⟩, ⟨"m", 0⟩]] [⟨"x", 0⟩, ⟨"m", 0⟩, ⟨"c", 0⟩]
        = [⟨"a", 0⟩, ⟨"m", 0⟩, ⟨"m", 0⟩, ⟨"c", 0⟩]
      ∧ chain chainStateEx [[⟨"a", 0⟩, ⟨"m", 0⟩]] [⟨"x", 0⟩, ⟨"m", 0⟩, ⟨"c", 0⟩]
        ≠ chainPerSpecWords chainStateEx [[⟨"a", 0⟩, ⟨"m", 0⟩]] [⟨"x", 0⟩, ⟨"m", 0⟩, ⟨"c", 0⟩] := by
  decide

/-- Witness for C2 at the concrete input of the counterexample. -/
theorem c2_chain_structure_witness :
    jsHead (([[⟨"a", 0⟩, ⟨"m", 0⟩]] : List SimplePath).getLastD []) = some ⟨"m", 0⟩
      ∧ ([⟨"x", 0⟩, ⟨"m", 0⟩, ⟨"c", 0⟩] : SimplePath).findIdx?
          (fun child =>
            chainStateEx.normalizeThought child.value
              == chainStateEx.normalizeThought (Child.mk "m" 0).value)
        = some 1
      ∧ chain chainStateEx [[⟨"a", 0⟩, ⟨"m", 0⟩]] [⟨"x", 0⟩, ⟨"m", 0⟩, ⟨"c", 0⟩]
        = [⟨"a", 0⟩, ⟨"m", 0⟩]
          ++ (([] ++ [chainAppendTail chainStateEx [⟨"x", 0⟩, ⟨"m", 0⟩, ⟨"c", 0⟩] ⟨"m", 0⟩ 1]).map
            (fun seg : SimplePath => seg.take 1 ++ seg.drop 2)).flatten :=
  ⟨by decide, by decide,
    c2_chain_structure chainStateEx [⟨"a", 0⟩, ⟨"m", 0⟩] [] [⟨"x", 0⟩, ⟨"m", 0⟩, ⟨"c", 0⟩]
      ⟨"m", 0⟩ 1 (by decide) (by decide) (by decide)⟩

/-! ## Claim C1: the running visible-index (code bug) -/

/-- C1, evaluated at the failing input. On the plain chain
`HOME → a → b → {c, d}` with everything expanded, `linearizeTree` emits four
nodes whose `indexDescendant` values are `[0, 1, 2, 4]`: the fourth emitted
node receives 4, not 3, because `virtualIndexNew = indexDescendant +
lastVirtualIndex + 1` adds the call's `indexDescendant` argument (the
parent's own absolute index) to the absolute index already stored in the
accumulator's last node, double-counting the parent for every second and
later sibling at depth ≥ 2. This contradicts the declared meaning of
`indexDescendant` ("index among all visible thoughts in the tree") and the
claim that the i-th emitted node has `indexDescendant` i. -/
theorem c1_indexDescendant_eval :
    (linearizeTree 4 exStateC1 {}).map (fun node => node.indexDescendant) = [0, 1, 2, 4]
      ∧ ([0, 1, 2, 4] : List Nat) ≠ [0, 1, 2, 3] := by
  decide

/-! ## Claim C4: missing thought records drop earlier siblings (code bug) -/

/-- C4, evaluated at the failing input. In `exStateDrop` the context view on
`m` has three contexts with parents `p1(5)`, `6` (missing) and `p3(7)`. The
claim says exactly the missing branch is omitted, leaving the sibling
branches present (`[m, p1, p3]`, thought ids `[1, 5, 7]`). The code's
`return []` inside the reduce instead RESETS the accumulator, so the emitted
ids are `[1, 7]`: the earlier sibling `p1` is dropped as well. No error is
raised (the function is total and returns a list). -/
theorem c4_missing_thought_eval :
    (linearizeTree 4 exStateDrop {}).map (fun node => node.thought.id) = [1, 7]
      ∧ (5 : ThoughtId) ∉ (linearizeTree 4 exStateDrop {}).map (fun node => node.thought.id) := by
  decide

/-! ## Claim C3: `belowCursor` -/

/-- Counterexample to C3 as stated: in `exStateDrop` the cursor (`[1, 5]`)
is reached during traversal, but the cursor's node is then dropped from the
output by the missing-thought reset; the later uncle `p3` is still emitted
with `belowCursor = true` although NO emitted node at or before it (nor
anywhere) has the cursor path. So "belowCursor is false for every emitted
node strictly before the cursor node" fails: for every store state it is not
the case that a true flag is preceded by an emitted cursor node. -/
theorem c3_counterexample :
    (∀ node ∈ linearizeTree 4 exStateDrop {}, exStateDrop.cursor ≠ some node.path)
      ∧ (linearizeTree 4 exStateDrop {}).map (fun node => node.belowCursor) = [false, true] := by
  decide

/-! ## Claims C9 and C10: the positioning pass -/

theorem positionFrom_length (sizes : String → Option Size) (fontSize slh : Rat) :
    ∀ (ts : List TreeThought) (y : Rat) (w : List (String × Rat)),
      (positionFrom sizes fontSize slh y w ts).length = ts.length := by
  intro ts
  induction ts with
  | nil => intro y w; rfl
  | cons node rest ih => intro y w; simp [positionFrom, ih]

theorem positionFrom_head_y (sizes : String → Option Size) (fontSize slh : Rat)
    (ts : List TreeThought) (y : Rat) (w : List (String × Rat)) (h : ts ≠ []) :
    (positionFrom sizes fontSize slh y w ts)[0]?.map TreeThoughtPositioned.y = some y := by
  cases ts with
  | nil => exact absurd rfl h
  | cons node rest => simp [positionFrom]

theorem c9_cliff_general (sizes : String → Option Size) (fontSize slh : Rat) :
    ∀ (ts : List TreeThought) (y : Rat) (w : List (String × Rat)) (i : Nat)
      (hi : i < ts.length),
      (positionFrom sizes fontSize slh y w ts)[i]?.map TreeThoughtPositioned.cliff
        = some (match ts[i + 1]? with
          | some next => min 0 ((next.depth : Int) - ((ts.get ⟨i, hi⟩).depth : Int))
          | none => -((ts.get ⟨i, hi⟩).depth : Int) - 1) := by
  intro ts
  induction ts with
  | nil => intro y w i hi; exact absurd hi (by simp)
  | cons node rest ih =>
    intro y w i hi
    cases i with
    | zero =>
      cases rest with
      | nil => simp [positionFrom]
      | cons next rest2 => simp [positionFrom]
    | succ i =>
      have hi' : i < rest.length := by simpa using hi
      simp only [positionFrom, List.getElem?_cons_succ, List.get_cons_succ]
      exact ih _ _ i hi'

/-- C9. In the positioning pass, every node's `cliff` equals
`min(0, next.depth - node.depth)` (so an increase in depth yields cliff 0),
and the last node's `cliff` equals its own negated depth minus one. -/
theorem c9_cliff (sizes : String → Option Size) (fontSize slh : Rat)
    (ts : List TreeThought) (i : Nat) (hi : i < ts.length) :
    (positionThoughts sizes fontSize slh ts)[i]?.map TreeThoughtPositioned.cliff
      = some (match ts[i + 1]? with
        | some next => min 0 ((next.depth : Int) - ((ts.get ⟨i, hi⟩).depth : Int))
        | none => -((ts.get ⟨i, hi⟩).depth : Int) - 1) :=
  c9_cliff_general sizes fontSize slh ts 0 [] i hi

/-- Witness for C9: a two-node sequence (depths 0 then 1), where the first
node's cliff is `min 0 (1 - 0) = 0`, and its singleton tail, where the last
node's cliff is `-1 - 1 = -2`. -/
theorem c9_cliff_witness :
    (positionThoughts (fun _ => none) 16 30
        [treeThoughtEx 0 "k0" false, treeThoughtEx 1 "k1" false])[0]?.map
      TreeThoughtPositioned.cliff = some (min 0 (1 - 0))
      ∧ (positionThoughts (fun _ => none) 16 30 [treeThoughtEx 1 "k1" false])[0]?.map
        TreeThoughtPositioned.cliff = some (-1 - 1) := by
  refine ⟨?_, ?_⟩
  · have h := c9_cliff (fun _ => none) 16 30
      [treeThoughtEx 0 "k0" false, treeThoughtEx 1 "k1" false] 0 (by decide)
    simpa [treeThoughtEx] using h
  · have h := c9_cliff (fun _ => none) 16 30 [treeThoughtEx 1 "k1" false] 0 (by decide)
    simpa [treeThoughtEx] using h

theorem c10_y_general (sizes : String → Option Size) (fontSize slh : Rat) :
    ∀ (ts : List TreeThought) (y : Rat) (w : List (String × Rat)) (i : Nat),
      i + 1 < ts.length →
      (positionFrom sizes fontSize slh y w ts)[i + 1]?.map TreeThoughtPositioned.y
        = (positionFrom sizes fontSize slh y w ts)[i]?.map
          (fun node => node.y + (if node.isTableCol1 then 0 else node.height)) := by
  intro ts
  induction ts with
  | nil => intro y w i hi; simp at hi
  | cons node rest ih =>
    intro y w i hi
    cases i with
    | zero =>
      have hrest : rest ≠ [] := by
        intro h
        rw [h] at hi
        simp at hi
      simp only [positionFrom, List.getElem?_cons_succ, List.getElem?_cons_zero,
        Option.map_some]
      rw [positionFrom_head_y sizes fontSize slh rest _ _ hrest]
      cases hcol : node.isTableCol1 <;> simp [hcol]
    | succ i =>
      have hi' : i + 1 < rest.length := by simpa using hi
      simp only [positionFrom, List.getElem?_cons_succ]
      exact ih _ _ i hi'

/-- C10. In the positioning pass, a node flagged `isTableCol1` does not
advance the running y accumulator: the node immediately following it is
assigned the same `y`, while every other node advances `y` by its own
height. -/
theorem c10_tableCol1_y (sizes : String → Option Size) (fontSize slh : Rat)
    (ts : List TreeThought) (i : Nat) (hi : i + 1 < ts.length) :
    (positionThoughts sizes fontSize slh ts)[i + 1]?.map TreeThoughtPositioned.y
      = (positionThoughts sizes fontSize slh ts)[i]?.map
        (fun node => node.y + (if node.isTableCol1 then 0 else node.height)) :=
  c10_y_general sizes fontSize slh ts 0 [] i hi

/-- Witness for C10: a table-column-1 node is followed by a node with the
same y (0); in a plain two-node sequence the second node's y advances by the
first node's height. -/
theorem c10_tableCol1_y_witness :
    (positionThoughts (fun _ => none) 16 30
        [treeThoughtEx 0 "k0" true, treeThoughtEx 1 "k1" false])[1]?.map
      TreeThoughtPositioned.y
      = (positionThoughts (fun _ => none) 16 30
        [treeThoughtEx 0 "k0" true, treeThoughtEx 1 "k1" false])[0]?.map
        (fun node => node.y + (if node.isTableCol1 then 0 else node.height))
      ∧ (positionThoughts (fun _ => none) 16 30
        [treeThoughtEx 0 "k0" true, treeThoughtEx 1 "k1" false])[1]?.map
        TreeThoughtPositioned.y = some 0 :=
  ⟨c10_tableCol1_y (fun _ => none) 16 30
      [treeThoughtEx 0 "k0" true, treeThoughtEx 1 "k1" false] 0 (by decide),
    by decide⟩

/-! ## Claim C8: visibility is monotonic down the tree -/

theorem appendToPathMemo_eq (path : IdPath) (id : ThoughtId) :
    appendToPathMemo path id = basePrefix path ++ [id] := by
  by_cases h : isRoot path = true <;> simp [appendToPathMemo, basePrefix, h]

theorem linearizeTree_ne_nil_gateOK (fuel : Nat) (state : State) (args : LinArgs)
    (h : linearizeTree fuel state args ≠ []) :
    gateOK state (args.basePath.getD HOME_PATH) := by
  cases fuel with
  | zero => exact absurd rfl h
  | succ fuel =>
    rw [linearizeTree] at h
    by_cases hg : (!isRoot (args.basePath.getD HOME_PATH)
        && !state.expanded (args.basePath.getD HOME_PATH)
        && !state.expandHoverDownPaths (args.basePath.getD HOME_PATH)) = true
    · rw [if_pos hg] at h
      exact absurd rfl h
    · cases hr : isRoot (args.basePath.getD HOME_PATH) with
      | true => exact Or.inl hr
      | false =>
        cases he : state.expanded (args.basePath.getD HOME_PATH) with
        | true => exact Or.inr (Or.inl he)
        | false =>
          cases hh : state.expandHoverDownPaths (args.basePath.getD HOME_PATH) with
          | true => exact Or.inr (Or.inr hh)
          | false => exact absurd (by rw [hr, he, hh]; rfl) hg

theorem linearizeChildren_gate_invariant
    (recur : LinArgs → List TreeThought) (state : State) (ctx : LinCtx)
    (Hrec : ∀ (args : LinArgs) (node : TreeThought), node ∈ recur args →
      GatedFrom state (basePrefix (args.basePath.getD HOME_PATH)) node)
    (HrecGate : ∀ args : LinArgs, recur args ≠ [] →
      gateOK state (args.basePath.getD HOME_PATH)) :
    ∀ (cs : List Thought) (i : Nat) (accum : List TreeThought) (flag : Bool),
      (∀ node ∈ accum, GatedFrom state (basePrefix ctx.path) node) →
      ∀ node ∈ (linearizeChildren recur state ctx cs i accum flag).1,
        GatedFrom state (basePrefix ctx.path) node := by
  intro cs
  induction cs with
  | nil => intro i accum flag Hacc node hmem; exact Hacc node hmem
  | cons c rest ih =>
    intro i accum flag Hacc node hmem
    rcases hchild : childResolved state ctx c with _ | child
    · rw [linearizeChildren, hchild] at hmem
      exact ih (i + 1) [] flag (by simp) node hmem
    · rw [linearizeChildren, hchild] at hmem
      refine ih (i + 1) _ _ ?_ node hmem
      intro nd hnd
      rcases List.mem_append.mp hnd with hnd' | hndDesc
      · rcases List.mem_append.mp hnd' with hndAcc | hndNode
        · exact Hacc nd hndAcc
        · -- the node emitted at this level
          have heq : nd = linNode state ctx c child i (linVirtualIndexNew ctx i accum)
              (linBelowCursor1 state flag (appendToPathMemo ctx.path child.id)) :=
            List.mem_singleton.mp hndNode
          refine ⟨[child.id], by simp, ?_, ?_⟩
          · rw [heq]
            show appendToPathMemo ctx.path child.id = basePrefix ctx.path ++ [child.id]
            exact appendToPathMemo_eq ctx.path child.id
          · intro j h1 hj
            simp at hj
            omega
      · -- a node of the recursive call
        have hgd := Hrec _ nd hndDesc
        have hbase : (linRecArgs state ctx c child (linVirtualIndexNew ctx i accum)
              (linBelowCursor1 state flag (appendToPathMemo ctx.path child.id))).basePath.getD
            HOME_PATH = appendToPathMemo ctx.path child.id := rfl
        rw [hbase] at hgd
        have hne : recur (linRecArgs state ctx c child (linVirtualIndexNew ctx i accum)
            (linBelowCursor1 state flag (appendToPathMemo ctx.path child.id))) ≠ [] :=
          List.ne_nil_of_mem hndDesc
        have hgate := HrecGate _ hne
        rw [hbase] at hgate
        by_cases hroot : isRoot (appendToPathMemo ctx.path child.id) = true
        · -- the child path is the root ([HOME]): base must be [] and id HOME
          have hbp : basePrefix (appendToPathMemo ctx.path child.id) = [] := by
            simp [basePrefix, hroot]
          rw [hbp] at hgd
          have hsplit : basePrefix ctx.path = [] := by
            have h1 : appendToPathMemo ctx.path child.id = HOME_PATH := by
              simpa [isRoot] using hroot
            have h2 : basePrefix ctx.path ++ [child.id] = HOME_PATH := by
              rw [← appendToPathMemo_eq]; exact h1
            cases hb : basePrefix ctx.path with
            | nil => rfl
            | cons x xs =>
              rw [hb] at h2
              have := congrArg List.length h2
              simp [HOME_PATH] at this
          rw [hsplit]
          simpa using hgd
        · -- ordinary child path: extend the id list
          have hbp : basePrefix (appendToPathMemo ctx.path child.id)
              = basePrefix ctx.path ++ [child.id] := by
            simp [basePrefix, hroot]
            exact appendToPathMemo_eq ctx.path child.id
          rw [hbp] at hgd
          rw [appendToPathMemo_eq] at hgate
          obtain ⟨ids, hne', hpath, hg⟩ := hgd
          refine ⟨child.id :: ids, by simp, ?_, ?_⟩
          · rw [hpath, List.append_assoc]
            rfl
          · intro j h1 hj
            cases j with
            | zero => omega
            | succ m =>
              rw [List.take_succ_cons]
              cases m with
              | zero =>
                simpa using hgate
              | succ m' =>
                have hg' := hg (m' + 1) (by omega) (by simp at hj; omega)
                rw [List.append_assoc] at *
                simpa using hg'

theorem linearizeTree_gate_invariant :
    ∀ (fuel : Nat) (state : State) (args : LinArgs) (node : TreeThought),
      node ∈ linearizeTree fuel state args →
      GatedFrom state (basePrefix (args.basePath.getD HOME_PATH)) node := by
  intro fuel
  induction fuel with
  | zero => intro state args node h; simp [linearizeTree] at h
  | succ fuel ih =>
    intro state args node h
    rw [linearizeTree] at h
    split at h
    · simp at h
    · dsimp only at h
      split at h
      all_goals split at h
      all_goals
        first
          | simp at h
          | exact linearizeChildren_gate_invariant (linearizeTree fuel state) state _
              (fun args' node' h' => ih state args' node' h')
              (fun args' h' => linearizeTree_ne_nil_gateOK fuel state args' h')
              _ 0 [] args.belowCursor (by simp) node h

/-- C8. For every store state (and any fuel), `linearizeTree` started from
the root never emits a node whose ancestor chain includes a path that is
neither the root, nor expanded, nor pinned open by hover-to-expand: every
proper non-empty prefix of an emitted node's path passes the expansion gate,
so visibility is monotonic down the tree (a non-expanded, non-root,
non-hover-expanded node's entire subtree is skipped). -/
theorem c8_visibility_monotonic (fuel : Nat) (state : State) (node : TreeThought)
    (hmem : node ∈ linearizeTree fuel state {}) (j : Nat) (h1 : 1 ≤ j)
    (hj : j < node.path.length) :
    gateOK state (node.path.take j) := by
  have h := linearizeTree_gate_invariant fuel state {} node hmem
  have hb : basePrefix ((({} : LinArgs)).basePath.getD HOME_PATH) = [] := rfl
  rw [hb] at h
  obtain ⟨ids, hne, hpath, hgate⟩ := h
  simp only [List.nil_append] at hpath hgate
  rw [hpath]
  exact hgate j h1 (by rw [hpath] at hj; exact hj)

/-- Witness for C8: in the everything-expanded store `exStateC1`, the second
emitted node (path `[1, 2]`) has its one proper non-empty prefix `[1]`
expanded. -/
theorem c8_visibility_monotonic_witness :
    ((linearizeTree 4 exStateC1 {}).getD 1 (treeThoughtEx 0 "w" false))
        ∈ linearizeTree 4 exStateC1 {}
      ∧ 1 < ((linearizeTree 4 exStateC1 {}).getD 1 (treeThoughtEx 0 "w" false)).path.length
      ∧ gateOK exStateC1
        (((linearizeTree 4 exStateC1 {}).getD 1 (treeThoughtEx 0 "w" false)).path.take 1) :=
  ⟨by decide, by decide,
    c8_visibility_monotonic 4 exStateC1 _ (by decide) 1 (by decide) (by decide)⟩


/-! ## Claim C3 amended: `belowCursor` -/

theorem belowSeq_all_true (cursor : Option IdPath) :
    ∀ l : List TreeThought, belowSeq cursor true l → ∀ node ∈ l, node.belowCursor = true := by
  intro l
  induction l with
  | nil => intro _ node h; simp at h
  | cons n rest ih =>
    intro hseq node h
    rw [belowSeq] at hseq
    obtain ⟨hn, hrest⟩ := hseq
    simp only [Bool.true_or] at hn
    rcases List.mem_cons.mp h with rfl | h'
    · exact hn
    · exact ih (hn ▸ hrest) node h'

theorem endFlag_cons (b : Bool) (n : TreeThought) (l : List TreeThought) :
    endFlag b (n :: l) = endFlag n.belowCursor l := by
  cases l with
  | nil => simp [endFlag]
  | cons m rest =>
    rcases h : (m :: rest).getLast? with _ | x
    · simp at h
    · rw [endFlag, endFlag, List.getLast?_cons_cons, h]

theorem endFlag_append (b : Bool) (l₁ l₂ : List TreeThought) :
    endFlag b (l₁ ++ l₂) = endFlag (endFlag b l₁) l₂ := by
  induction l₁ generalizing b with
  | nil => simp [endFlag]
  | cons n rest ih => rw [List.cons_append, endFlag_cons, endFlag_cons, ih]

theorem belowSeq_append (cursor : Option IdPath) :
    ∀ (l₁ l₂ : List TreeThought) (b : Bool),
      belowSeq cursor b (l₁ ++ l₂)
        ↔ belowSeq cursor b l₁ ∧ belowSeq cursor (endFlag b l₁) l₂ := by
  intro l₁
  induction l₁ with
  | nil =>
    intro l₂ b
    simp only [List.nil_append, endFlag]
    rw [belowSeq]
    simp
  | cons n rest ih =>
    intro l₂ b
    simp only [List.cons_append, belowSeq, List.append_eq, ih, endFlag_cons, and_assoc]

theorem linBelowCursor1_eq (state : State) (flag : Bool) (p : IdPath) :
    linBelowCursor1 state flag p = (flag || (state.cursor == some p)) := by
  cases flag <;> cases h : (state.cursor == some p) <;> simp [linBelowCursor1, h]

theorem linNextFlag_eq_endFlag (cursor : Option IdPath) (b1 : Bool)
    (descendants : List TreeThought) (hseq : belowSeq cursor b1 descendants) :
    linNextFlag b1 descendants = endFlag b1 descendants := by
  rcases hlast : descendants.getLast? with _ | n
  · simp [linNextFlag, endFlag, hlast]
  · have hmem : n ∈ descendants := List.mem_of_mem_getLast? hlast
    cases b1 with
    | false => simp [linNextFlag, endFlag, hlast]
    | true =>
      have := belowSeq_all_true cursor descendants hseq n hmem
      simp [linNextFlag, endFlag, hlast, this]

theorem belowSeq_step (state : State) (recur : LinArgs → List TreeThought)
    (Hrec : ∀ args : LinArgs, belowSeq state.cursor args.belowCursor (recur args))
    (ctx : LinCtx) (c child : Thought) (i : Nat)
    (accum : List TreeThought) (b0 flag : Bool)
    (Hacc : belowSeq state.cursor b0 accum) (Hflag : flag = endFlag b0 accum) :
    belowSeq state.cursor b0
        (accum
          ++ [linNode state ctx c child i (linVirtualIndexNew ctx i accum)
            (linBelowCursor1 state flag (appendToPathMemo ctx.path child.id))]
          ++ recur (linRecArgs state ctx c child (linVirtualIndexNew ctx i accum)
            (linBelowCursor1 state flag (appendToPathMemo ctx.path child.id))))
      ∧ linNextFlag
          (linBelowCursor1 state flag (appendToPathMemo ctx.path child.id))
          (recur (linRecArgs state ctx c child (linVirtualIndexNew ctx i accum)
            (linBelowCursor1 state flag (appendToPathMemo ctx.path child.id))))
        = endFlag b0
          (accum
            ++ [linNode state ctx c child i (linVirtualIndexNew ctx i accum)
              (linBelowCursor1 state flag (appendToPathMemo ctx.path child.id))]
            ++ recur (linRecArgs state ctx c child (linVirtualIndexNew ctx i accum)
              (linBelowCursor1 state flag (appendToPathMemo ctx.path child.id)))) := by
  set B1 := linBelowCursor1 state flag (appendToPathMemo ctx.path child.id) with hB1
  set N := linNode state ctx c child i (linVirtualIndexNew ctx i accum) B1 with hN
  set D := recur (linRecArgs state ctx c child (linVirtualIndexNew ctx i accum) B1) with hD
  have hDseq : belowSeq state.cursor B1 D := by
    have h := Hrec (linRecArgs state ctx c child (linVirtualIndexNew ctx i accum) B1)
    exact h
  have hNbc : N.belowCursor = B1 := rfl
  have hNpath : N.path = appendToPathMemo ctx.path child.id := rfl
  constructor
  · rw [belowSeq_append, belowSeq_append]
    refine ⟨⟨Hacc, ?_⟩, ?_⟩
    · rw [belowSeq]
      refine ⟨?_, trivial⟩
      rw [hNbc, hNpath, ← Hflag, hB1, linBelowCursor1_eq]
    · rw [endFlag_append, endFlag_cons]
      simpa [endFlag, hNbc, ← Hflag] using hDseq
  · rw [linNextFlag_eq_endFlag state.cursor B1 D hDseq]
    rw [endFlag_append, endFlag_append, endFlag_cons]
    simp [endFlag, hNbc]

theorem linearizeChildren_belowSeq
    (recur : LinArgs → List TreeThought) (state : State) (ctx : LinCtx)
    (Hrec : ∀ args : LinArgs, belowSeq state.cursor args.belowCursor (recur args))
    (b0 : Bool) :
    ∀ (cs : List Thought) (i : Nat) (accum : List TreeThought) (flag : Bool),
      (∀ c ∈ cs, childResolved state ctx c ≠ none) →
      belowSeq state.cursor b0 accum →
      flag = endFlag b0 accum →
      belowSeq state.cursor b0 (linearizeChildren recur state ctx cs i accum flag).1
        ∧ (linearizeChildren recur state ctx cs i accum flag).2
          = endFlag b0 (linearizeChildren recur state ctx cs i accum flag).1 := by
  intro cs
  induction cs with
  | nil =>
    intro i accum flag _ Hacc Hflag
    exact ⟨Hacc, Hflag⟩
  | cons c rest ih =>
    intro i accum flag Hcs Hacc Hflag
    rcases hchild : childResolved state ctx c with _ | child
    · exact absurd hchild (Hcs c (List.mem_cons_self _ _))
    · rw [linearizeChildren, hchild]
      dsimp only
      obtain ⟨hseq', hflag'⟩ :=
        belowSeq_step state recur Hrec ctx c child i accum b0 flag Hacc Hflag
      exact ih (i + 1) _ _ (fun c' hc' => Hcs c' (List.mem_cons_of_mem _ hc')) hseq' hflag'

theorem linearizeTree_belowSeq (fuel : Nat) (state : State)
    (hstate : NoMissingContextParent state) :
    ∀ args : LinArgs, belowSeq state.cursor args.belowCursor (linearizeTree fuel state args) := by
  induction fuel with
  | zero => intro args; exact trivial
  | succ fuel ih =>
    intro args
    rw [linearizeTree]
    split
    · exact trivial
    · dsimp only
      split
      · -- context view active
        rename_i hcv
        split
        · exact trivial
        · refine (linearizeChildren_belowSeq (linearizeTree fuel state) state _ ih
            args.belowCursor _ 0 [] args.belowCursor ?_ trivial rfl).1
          intro c hc
          have hmem := List.mem_of_mem_filter hc
          have hsome := hstate _ c hmem
          simp only [childResolved, hcv, if_true]
          intro hnone
          rw [hnone] at hsome
          simp at hsome
      · -- context view inactive
        rename_i hcv
        split
        · exact trivial
        · refine (linearizeChildren_belowSeq (linearizeTree fuel state) state _ ih
            args.belowCursor _ 0 [] args.belowCursor ?_ trivial rfl).1
          intro c hc
          simp [childResolved, hcv]

theorem belowSeq_get (cursor : Option IdPath) :
    ∀ (l : List TreeThought) (b : Bool) (i : Nat) (hi : i < l.length),
      belowSeq cursor b l →
      ((l.get ⟨i, hi⟩).belowCursor = true
        ↔ (b = true ∨ ∃ node ∈ l.take (i + 1), cursor = some node.path)) := by
  intro l
  induction l with
  | nil => intro b i hi; simp at hi
  | cons n rest ih =>
    intro b i hi hseq
    rw [belowSeq] at hseq
    obtain ⟨hn, hrest⟩ := hseq
    cases i with
    | zero =>
      simp only [List.get, List.take, List.take_zero, List.mem_singleton]
      rw [hn]
      cases b <;> cases hc : (cursor == some n.path) <;>
        simp_all [beq_iff_eq, List.take]
    | succ i =>
      have hi' : i < rest.length := by simpa using hi
      have hiter := ih n.belowCursor i hi' hrest
      simp only [List.get_cons_succ] at *
      rw [hiter, hn]
      cases b <;> cases hc : (cursor == some n.path) <;>
        simp_all [beq_iff_eq, List.take_succ_cons]

/-- C3 amended. For every store state in which every context entry's parent
thought record is present (so the missing-thought reset of the reduce never
fires) and for any fuel, an emitted node's `belowCursor` flag is true
exactly when some node at or before it in the emitted order has the cursor
as its path: it is false for every node strictly before the cursor node and
true for the cursor node and every node emitted after it, including across
sibling and uncle boundaries. -/
theorem c3_belowCursor (fuel : Nat) (state : State) (hstate : NoMissingContextParent state)
    (i : Nat) (hi : i < (linearizeTree fuel state {}).length) :
    ((linearizeTree fuel state {}).get ⟨i, hi⟩).belowCursor = true
      ↔ ∃ node ∈ (linearizeTree fuel state {}).take (i + 1), state.cursor = some node.path := by
  have h := belowSeq_get state.cursor (linearizeTree fuel state {}) false i hi
    (linearizeTree_belowSeq fuel state hstate {})
  simpa using h

/-- Witness for C3 at the concrete cursor store: the third emitted node
(`c`, after the cursor `b`) has `belowCursor = true`, and indeed a node at
or before it (`b`) carries the cursor path. -/
theorem c3_belowCursor_witness :
    NoMissingContextParent exStateCursor
      ∧ 2 < (linearizeTree 4 exStateCursor {}).length
      ∧ (((linearizeTree 4 exStateCursor {}).get ⟨2, by decide⟩).belowCursor = true
        ↔ ∃ node ∈ (linearizeTree 4 exStateCursor {}).take 3,
            exStateCursor.cursor = some node.path) :=
  ⟨fun value c hc => by simp [exStateCursor] at hc,
    by decide,
    c3_belowCursor 4 exStateCursor
      (fun value c hc => by simp [exStateCursor] at hc) 2 (by decide)⟩
